import Mathlib

/-!
Shallow embedding of the runo-search core (src/lib.rs).

The program is a single-file, multi-pattern, AND-semantics line-search
engine.  Its pipeline is: thread-local regex cache (get-or-compile),
mmap of the file, AND matcher over the raw bytes, and a position
resolver converting byte offsets to deduplicated ascending line numbers
with optional line-text extraction.

Modelling choices:
- File contents and pattern strings are byte lists (`List Nat`); a Rust
  `String` is a UTF-8 byte sequence and the cache key is built by raw
  byte concatenation, so the byte level is the faithful one.
- A compiled regex (`regex::bytes::Regex`) is opaque to this crate; it
  is modelled as a `Matcher`, a function from the haystack bytes to the
  list of start offsets produced by `find_iter` (non-overlapping
  leftmost-first matches, in ascending order, each offset at most the
  haystack length).  Regex compilation (`RegexBuilder::build`) is an
  abstract parameter `compile : List Nat → Bool → Option Matcher`
  (`none` models a compile error).
- The filesystem (`File::open` + `Mmap::map`) is a parameter
  `fs : String → Option (List Nat)`; `none` models `OpenFailure`.
- The thread-local cache cell `CACHED` is passed as explicit state: the
  entry function takes the cache before the call and returns the cache
  after it.
- Rust range-slicing `&bytes[a..b]` panics when `a ≤ b ≤ len` fails;
  the functions that slice (`positions_to_line_results`,
  `extract_line_text`) return `Option`, with `none` modelling a panic,
  so that in-bounds behaviour is a theorem, not an assumption.
- The `u32` line counter and `usize` offsets are modelled as `Nat`; all
  claims concern the semantic (arbitrary-precision) line numbers.
-/

namespace RunoSearch

/-- A compiled regex, abstracted to its observable behaviour: `find hay`
is the list of start offsets of the non-overlapping matches that
`Regex::find_iter` yields on the haystack `hay`. -/
structure Matcher where
  find : List Nat → List Nat

/-- Result record: 1-based line number plus (optionally empty) line text.
Models both `LineResult` and the field-identical napi `SearchLineResult`
(the conversion between them in `search_file` copies both fields). -/
structure LineResult where
  line : Nat
  text : List Nat
deriving DecidableEq

/-- Thread-local cache entry: the cache key (pattern bytes joined with a
0 delimiter, plus 0 and the byte for '1' or '0' for the unicode flag)
together with the compiled regexes.  Models `CachedSearch`. -/
structure CachedSearch where
  cache_key : List Nat
  regexes : List Matcher

/-- Model of `memchr::memchr`: index of the first occurrence of
`needle` in the list, if any. -/
def memchr (needle : Nat) : List Nat → Option Nat
  | [] => none
  | a :: rest => if a = needle then some 0 else (memchr needle rest).map (· + 1)

/-- Model of `memchr::memrchr`: index of the last occurrence of
`needle` in the list, if any. -/
def memrchr (needle : Nat) : List Nat → Option Nat
  | [] => none
  | a :: rest =>
    match memrchr needle rest with
    | some i => some (i + 1)
    | none => if a = needle then some 0 else none

/-- Model of `text.trim_end_matches(|c| c == '\r' || c == '\n')`:
removes every trailing byte equal to 13 (CR) or 10 (LF).  Trailing CR
bytes of the raw line correspond one-to-one to trailing CR characters
of the lossily decoded string (13 is never part of a longer UTF-8
sequence), so the byte-level trim is faithful; `String::from_utf8_lossy`
itself is total and is modelled as the identity on bytes. -/
def trimEndCrLf (l : List Nat) : List Nat :=
  (l.reverse.dropWhile fun c => c == 13 || c == 10).reverse

/-- Model of `extract_line_text`: the line around byte offset `pos` —
from one past the previous newline (or 0) up to the next newline (or
end of file) — with trailing CR/LF bytes trimmed.  `none` models a
slice panic (`&bytes[..pos]`, `&bytes[pos..]`, or
`&bytes[line_start..line_end]` out of bounds). -/
def extract_line_text (bytes : List Nat) (pos : Nat) : Option (List Nat) :=
  if pos ≤ bytes.length then
    let line_start :=
      match memrchr 10 (bytes.take pos) with
      | some i => i + 1
      | none => 0
    let line_end :=
      match memchr 10 (bytes.drop pos) with
      | some i => pos + i
      | none => bytes.length
    if line_start ≤ line_end ∧ line_end ≤ bytes.length then
      some (trimEndCrLf ((bytes.drop line_start).take (line_end - line_start)))
    else none
  else none

/-- Model of `Vec::dedup` on the sorted position vector: removes
consecutive duplicate elements. -/
def dedupAdj : List Nat → List Nat
  | [] => []
  | [a] => [a]
  | a :: b :: rest => if a = b then dedupAdj (b :: rest) else a :: dedupAdj (b :: rest)

/-- The 1-based number of the line containing byte offset `pos`: one
plus the number of newline bytes strictly before `pos`. -/
def lineOf (bytes : List Nat) (pos : Nat) : Nat :=
  1 + (bytes.take pos).count 10

/-- The updated line counter of one loop step:
`current_line += memchr_iter(b'\n', &bytes[last_pos..pos]).count()`.
The slice `&bytes[last_pos..pos]` is `(bytes.drop last_pos).take (pos - last_pos)`. -/
def advanceLine (bytes : List Nat) (current_line last_pos pos : Nat) : Nat :=
  current_line + ((bytes.drop last_pos).take (pos - last_pos)).count 10

/-- The loop body of `positions_to_line_results`: walks the sorted,
deduplicated positions left to right, advancing `current_line` by the
newline count of `bytes[last_pos..pos]` (counted by `memchr_iter`),
keeping a seen-lines set, and emitting a `LineResult` for each new
line.  `none` models the panic of the slice `&bytes[last_pos..pos]`
(or of `extract_line_text`). -/
def resolveLoop (bytes : List Nat) (include_lines : Bool) :
    List Nat → Nat → Nat → List Nat → Option (List LineResult)
  | [], _, _, _ => some []
  | pos :: rest, current_line, last_pos, seen =>
    if last_pos ≤ pos ∧ pos ≤ bytes.length then
      if advanceLine bytes current_line last_pos pos ∈ seen then
        resolveLoop bytes include_lines rest (advanceLine bytes current_line last_pos pos) pos seen
      else
        (if include_lines then extract_line_text bytes pos else some []).bind fun text =>
          (resolveLoop bytes include_lines rest (advanceLine bytes current_line last_pos pos) pos
              (advanceLine bytes current_line last_pos pos :: seen)).map
            fun rest_results =>
              { line := advanceLine bytes current_line last_pos pos, text := text } :: rest_results
    else none

/-- Model of `positions.sort_unstable(); positions.dedup()`: the sorted
ascending order with exact duplicates removed.  `sort_unstable` is an
unstable comparison sort, but on `usize` keys its output is the unique
sorted permutation, so any correct sort is extensionally exact;
`insertionSort` is used because it is structurally recursive. -/
def sortDedup (positions : List Nat) : List Nat :=
  dedupAdj (List.insertionSort (· ≤ ·) positions)

/-- Model of `positions_to_line_results`: sort and dedup the match
positions, then resolve them to deduplicated line results in one
forward pass starting at line 1, cursor 0, empty seen set. -/
def positions_to_line_results (bytes : List Nat) (positions : List Nat)
    (include_lines : Bool) : Option (List LineResult) :=
  resolveLoop bytes include_lines (sortDedup positions) 1 0 []

/-- The AND-matcher loop of `search_file_impl`: for each regex in
order, collect the start offsets of all its matches; if some regex has
no match, fail (`none` here models the early `return Vec::new()`). -/
def collectMatches (bytes : List Nat) : List Matcher → Option (List Nat)
  | [] => some []
  | r :: rest =>
    if (r.find bytes).isEmpty then none
    else (collectMatches bytes rest).map (r.find bytes ++ ·)

/-- Model of `search_file_impl`: sequential regex matching with AND
semantics and early exit, then conversion of the collected byte
positions to line results.  The outer `Option` models a panic in the
resolver; the AND early exit yields `some []`. -/
def search_file_impl (bytes : List Nat) (regexes : List Matcher)
    (include_lines : Bool) : Option (List LineResult) :=
  match collectMatches bytes regexes with
  | none => some []
  | some positions => positions_to_line_results bytes positions include_lines

/-- Model of `patterns.join("\0")`: the pattern byte strings joined
with a single 0 byte between consecutive patterns. -/
def joinNul : List (List Nat) → List Nat
  | [] => []
  | [p] => p
  | p :: ps => p ++ 0 :: joinNul ps

/-- The cache key of `search_file`: the joined patterns, a 0 byte, and
the ASCII byte of '1' (49) or '0' (48) for the unicode flag. -/
def mkCacheKey (patterns : List (List Nat)) (unicode : Bool) : List Nat :=
  joinNul patterns ++ [0, if unicode then 49 else 48]

/-- Model of `patterns.iter().map(build).collect::<Result<Vec<_>,_>>()`:
compiles each pattern in order, failing as a whole if any single
pattern fails to compile. -/
def compileAll (compile : List Nat → Bool → Option Matcher) (unicode : Bool) :
    List (List Nat) → Option (List Matcher)
  | [] => some []
  | p :: ps =>
    match compile p unicode with
    | none => none
    | some r => (compileAll compile unicode ps).map (r :: ·)

/-- The get-or-compile step of `search_file`: reuse the cached regexes
when the stored key equals the computed key; otherwise compile all
patterns and, on success, overwrite the cache slot.  `none` models the
early `return Vec::new()` on compile failure (which leaves the slot
untouched). -/
def getOrCompile (compile : List Nat → Bool → Option Matcher)
    (cache : Option CachedSearch) (patterns : List (List Nat)) (unicode : Bool) :
    Option (List Matcher × Option CachedSearch) :=
  let cache_key := mkCacheKey patterns unicode
  match cache with
  | some cached =>
    if cached.cache_key = cache_key then some (cached.regexes, cache)
    else
      match compileAll compile unicode patterns with
      | none => none
      | some regexes => some (regexes, some { cache_key := cache_key, regexes := regexes })
  | none =>
    match compileAll compile unicode patterns with
    | none => none
    | some regexes => some (regexes, some { cache_key := cache_key, regexes := regexes })

/-- Model of the exported `search_file`: reject an empty pattern list,
get-or-compile the regexes (updating the thread-local cache slot on a
successful recompile), open and map the file, run the AND search, and
return the results.  The returned pair is (call result, cache slot
after the call); inside the result, `none` models a panic and `some []`
the silent-empty failure signal. -/
def search_file (compile : List Nat → Bool → Option Matcher)
    (fs : String → Option (List Nat)) (cache : Option CachedSearch)
    (file_path : String) (patterns : List (List Nat))
    (unicode : Bool) (include_lines : Bool) :
    Option (List LineResult) × Option CachedSearch :=
  if patterns.isEmpty then (some [], cache)
  else
    match getOrCompile compile cache patterns unicode with
    | none => (some [], cache)
    | some (regexes, cache') =>
      match fs file_path with
      | none => (some [], cache')
      | some bytes => (search_file_impl bytes regexes include_lines, cache')

/-- Start offsets of the (leftmost) occurrences of the literal byte
string `pat` in `hay`.  This is the behaviour of the compiled regex for
a pattern with no metacharacters and no case-folding counterparts, in
every concrete instance below; for those patterns the occurrences are
also mutually non-overlapping, matching the `find_iter` semantics. -/
def litFind (pat : List Nat) (hay : List Nat) : List Nat :=
  (List.range (hay.length + 1)).filter fun i => (hay.drop i).take pat.length == pat

/-- A concrete regex-compilation model in which every pattern is a
literal byte string; used to instantiate witnesses and
counterexamples. -/
def litCompile (pat : List Nat) (_unicode : Bool) : Option Matcher :=
  some { find := litFind pat }

/-- A concrete regex-compilation model for the counterexample built
from the patterns "(" (byte 40), ")" (byte 41) and "(\0)" (bytes
[40, 0, 41]): as in the real regex engine, "(" and ")" alone are
malformed and fail to compile, while "(\0)" compiles to a group whose
matches are exactly the occurrences of the NUL byte. -/
def parenCompile (pat : List Nat) (_unicode : Bool) : Option Matcher :=
  if pat = [40] ∨ pat = [41] then none
  else if pat = [40, 0, 41] then some { find := litFind [0] }
  else some { find := litFind pat }

/-- Rendering of the spec sentence on line-text extraction, for
comparison with `extract_line_text`: same line boundaries, but with
only "a single trailing carriage-return stripped if present". -/
def extract_line_text_singleCR (bytes : List Nat) (pos : Nat) : Option (List Nat) :=
  if pos ≤ bytes.length then
    let line_start :=
      match memrchr 10 (bytes.take pos) with
      | some i => i + 1
      | none => 0
    let line_end :=
      match memchr 10 (bytes.drop pos) with
      | some i => pos + i
      | none => bytes.length
    if line_start ≤ line_end ∧ line_end ≤ bytes.length then
      let line := (bytes.drop line_start).take (line_end - line_start)
      some (if line.getLast? = some 13 then line.dropLast else line)
    else none
  else none

/-- The successive newly seen values of a list, given an initial seen
set: the emission order of line numbers in `resolveLoop`. -/
def newLines (seen : List Nat) : List Nat → List Nat
  | [] => []
  | n :: rest => if n ∈ seen then newLines seen rest else n :: newLines (n :: seen) rest

/-! Lemmas about `memchr` and `memrchr`. -/

theorem memchr_lt_length {needle : Nat} : ∀ {l : List Nat} {i : Nat},
    memchr needle l = some i → i < l.length := by
  intro l
  induction l with
  | nil => intro i h; simp [memchr] at h
  | cons a rest ih =>
    intro i h
    rw [memchr] at h
    split at h
    · cases h; simp
    · simp only [Option.map_eq_some'] at h
      obtain ⟨j, hj, rfl⟩ := h
      have := ih hj
      simp
      omega

theorem memchr_none {needle : Nat} : ∀ {l : List Nat},
    memchr needle l = none → ∀ j : Nat, l[j]? ≠ some needle := by
  intro l
  induction l with
  | nil => intro _ j; simp
  | cons a rest ih =>
    intro h j
    rw [memchr] at h
    split at h
    · cases h
    · simp only [Option.map_eq_none'] at h
      cases j with
      | zero =>
        simp only [List.getElem?_cons_zero]
        intro hc
        cases hc
        simp_all
      | succ k => simpa using ih h k

theorem memchr_spec {needle : Nat} : ∀ {l : List Nat} {i : Nat},
    memchr needle l = some i →
    l[i]? = some needle ∧ ∀ j : Nat, j < i → l[j]? ≠ some needle := by
  intro l
  induction l with
  | nil => intro i h; simp [memchr] at h
  | cons a rest ih =>
    intro i h
    rw [memchr] at h
    split at h
    · cases h
      constructor
      · simp_all
      · intro j hj; omega
    · simp only [Option.map_eq_some'] at h
      obtain ⟨j, hj, rfl⟩ := h
      obtain ⟨h1, h2⟩ := ih hj
      refine ⟨by simpa using h1, ?_⟩
      intro k hk
      cases k with
      | zero =>
        simp only [List.getElem?_cons_zero]
        intro hc
        cases hc
        simp_all
      | succ m => simpa using h2 m (by omega)

theorem memrchr_lt_length {needle : Nat} : ∀ {l : List Nat} {i : Nat},
    memrchr needle l = some i → i < l.length := by
  intro l
  induction l with
  | nil => intro i h; simp [memrchr] at h
  | cons a rest ih =>
    intro i h
    rw [memrchr] at h
    split at h
    · rename_i j hj
      cases h
      have := ih hj
      simp
      omega
    · split at h
      · cases h; simp
      · cases h

theorem memrchr_none {needle : Nat} : ∀ {l : List Nat},
    memrchr needle l = none → ∀ j : Nat, l[j]? ≠ some needle := by
  intro l
  induction l with
  | nil => intro _ j; simp
  | cons a rest ih =>
    intro h j
    rw [memrchr] at h
    split at h
    · cases h
    · rename_i hrest
      split at h
      · cases h
      · cases j with
        | zero =>
          simp only [List.getElem?_cons_zero]
          intro hc
          cases hc
          simp_all
        | succ k => simpa using ih hrest k

theorem memrchr_spec {needle : Nat} : ∀ {l : List Nat} {i : Nat},
    memrchr needle l = some i →
    l[i]? = some needle ∧ ∀ j : Nat, i < j → l[j]? ≠ some needle := by
  intro l
  induction l with
  | nil => intro i h; simp [memrchr] at h
  | cons a rest ih =>
    intro i h
    rw [memrchr] at h
    split at h
    · rename_i j hj
      cases h
      obtain ⟨h1, h2⟩ := ih hj
      refine ⟨by simpa using h1, ?_⟩
      intro k hk
      cases k with
      | zero => omega
      | succ m => simpa using h2 m (by omega)
    · rename_i hrest
      split at h
      · cases h
        refine ⟨by simp_all, ?_⟩
        intro k hk
        cases k with
        | zero => omega
        | succ m => simpa using memrchr_none hrest m
      · cases h

/-! Lemmas about line counting. -/

theorem lineOf_add (bytes : List Nat) {a b : Nat} (h : a ≤ b) :
    lineOf bytes b = lineOf bytes a + ((bytes.drop a).take (b - a)).count 10 := by
  obtain ⟨n, rfl⟩ : ∃ n, b = a + n := ⟨b - a, by omega⟩
  simp only [lineOf, Nat.add_sub_cancel_left, List.take_add, List.count_append]
  omega

theorem lineOf_zero (bytes : List Nat) : lineOf bytes 0 = 1 := by
  simp [lineOf]

/-! Characterization of `extract_line_text`. -/

theorem extract_line_text_eq (bytes : List Nat) (pos : Nat) (h : pos ≤ bytes.length) :
    ∃ s e, s ≤ pos ∧ pos ≤ e ∧ e ≤ bytes.length ∧
      (s = 0 ∨ bytes[s - 1]? = some 10) ∧
      (∀ j : Nat, s ≤ j → j < pos → bytes[j]? ≠ some 10) ∧
      (e = bytes.length ∨ bytes[e]? = some 10) ∧
      (∀ j : Nat, pos ≤ j → j < e → bytes[j]? ≠ some 10) ∧
      extract_line_text bytes pos =
        some (trimEndCrLf ((bytes.drop s).take (e - s))) := by
  have htlen : (bytes.take pos).length = pos := by
    simp [List.length_take]
    omega
  have hget_take : ∀ j : Nat, j < pos → (bytes.take pos)[j]? = bytes[j]? := by
    intro j hj
    rw [List.getElem?_take]
    simp [hj]
  have hget_drop : ∀ j : Nat, (bytes.drop pos)[j]? = bytes[pos + j]? :=
    fun j => List.getElem?_drop bytes pos j
  -- the computed line start and its properties
  obtain ⟨s, hs_def, hs_le, hs_left, hs_no⟩ :
      ∃ s, (match memrchr 10 (bytes.take pos) with
              | some i => i + 1
              | none => 0) = s ∧
        s ≤ pos ∧ (s = 0 ∨ bytes[s - 1]? = some 10) ∧
        (∀ j : Nat, s ≤ j → j < pos → bytes[j]? ≠ some 10) := by
    cases hm : memrchr 10 (bytes.take pos) with
    | none =>
      refine ⟨0, rfl, by omega, Or.inl rfl, ?_⟩
      intro j _ hj
      rw [← hget_take j hj]
      exact memrchr_none hm j
    | some i =>
      have hi : i < pos := htlen ▸ memrchr_lt_length hm
      obtain ⟨h1, h2⟩ := memrchr_spec hm
      refine ⟨i + 1, rfl, by omega, Or.inr ?_, ?_⟩
      · simpa using (hget_take i hi).symm.trans h1
      · intro j hj1 hj2
        rw [← hget_take j hj2]
        exact h2 j (by omega)
  -- the computed line end and its properties
  obtain ⟨e, he_def, he_ge, he_le, he_right, he_no⟩ :
      ∃ e, (match memchr 10 (bytes.drop pos) with
              | some i => pos + i
              | none => bytes.length) = e ∧
        pos ≤ e ∧ e ≤ bytes.length ∧ (e = bytes.length ∨ bytes[e]? = some 10) ∧
        (∀ j : Nat, pos ≤ j → j < e → bytes[j]? ≠ some 10) := by
    cases hm : memchr 10 (bytes.drop pos) with
    | none =>
      refine ⟨bytes.length, rfl, h, le_refl _, Or.inl rfl, ?_⟩
      intro j hj1 hj2
      have := memchr_none hm (j - pos)
      rw [hget_drop (j - pos)] at this
      have hpj : pos + (j - pos) = j := by omega
      rwa [hpj] at this
    | some i =>
      have hi : i < (bytes.drop pos).length := memchr_lt_length hm
      rw [List.length_drop] at hi
      obtain ⟨h1, h2⟩ := memchr_spec hm
      refine ⟨pos + i, rfl, by omega, by omega, Or.inr ?_, ?_⟩
      · rw [← hget_drop i]; exact h1
      · intro j hj1 hj2
        have := h2 (j - pos) (by omega)
        rw [hget_drop (j - pos)] at this
        have hpj : pos + (j - pos) = j := by omega
        rwa [hpj] at this
  refine ⟨s, e, hs_le, he_ge, he_le, hs_left, hs_no, he_right, he_no, ?_⟩
  rw [extract_line_text]
  rw [if_pos h, hs_def, he_def, if_pos ⟨by omega, he_le⟩]

theorem extract_line_text_isSome (bytes : List Nat) (pos : Nat) (h : pos ≤ bytes.length) :
    ∃ t, extract_line_text bytes pos = some t := by
  obtain ⟨s, e, _, _, _, _, _, _, _, heq⟩ := extract_line_text_eq bytes pos h
  exact ⟨_, heq⟩

/-! Lemmas about `dedupAdj`, `sortDedup` and `newLines`. -/

theorem dedupAdj_sublist : ∀ l : List Nat, (dedupAdj l).Sublist l := by
  intro l
  induction l with
  | nil => simp [dedupAdj]
  | cons a rest ih =>
    cases rest with
    | nil => simp [dedupAdj]
    | cons b rest' =>
      rw [dedupAdj]
      split
      · exact (ih : (dedupAdj (b :: rest')).Sublist (b :: rest')).cons a
      · exact (ih : (dedupAdj (b :: rest')).Sublist (b :: rest')).cons₂ a

theorem mem_dedupAdj : ∀ {l : List Nat} {x : Nat}, x ∈ dedupAdj l ↔ x ∈ l := by
  intro l
  induction l with
  | nil => intro x; simp [dedupAdj]
  | cons a rest ih =>
    intro x
    cases rest with
    | nil => simp [dedupAdj]
    | cons b rest' =>
      rw [dedupAdj]
      split
      · rename_i hab
        rw [ih]
        subst hab
        simp
      · simp only [List.mem_cons]
        rw [ih]
        simp

theorem dedupAdj_ne_nil : ∀ {l : List Nat}, l ≠ [] → dedupAdj l ≠ [] := by
  intro l h
  cases l with
  | nil => exact absurd rfl h
  | cons a rest =>
    cases rest with
    | nil => simp [dedupAdj]
    | cons b rest' =>
      rw [dedupAdj]
      split
      · exact dedupAdj_ne_nil (by simp)
      · simp

theorem sortDedup_sorted (l : List Nat) : List.Pairwise (· ≤ ·) (sortDedup l) :=
  List.Pairwise.sublist (dedupAdj_sublist _) (List.sorted_insertionSort (· ≤ ·) l)

theorem mem_sortDedup {l : List Nat} {x : Nat} : x ∈ sortDedup l ↔ x ∈ l := by
  rw [sortDedup, mem_dedupAdj]
  exact (List.perm_insertionSort (· ≤ ·) l).mem_iff

theorem sortDedup_ne_nil {l : List Nat} (h : l ≠ []) : sortDedup l ≠ [] := by
  apply dedupAdj_ne_nil
  intro hc
  have hp := List.perm_insertionSort (· ≤ ·) l
  rw [hc] at hp
  exact h hp.symm.eq_nil

theorem newLines_nil_ne_nil {l : List Nat} (h : l ≠ []) : newLines [] l ≠ [] := by
  cases l with
  | nil => exact absurd rfl h
  | cons n rest =>
    rw [newLines]
    simp

/-! Lemmas about `resolveLoop` and `positions_to_line_results`. -/

theorem advanceLine_lineOf (bytes : List Nat) {last pos : Nat} (h : last ≤ pos) :
    advanceLine bytes (lineOf bytes last) last pos = lineOf bytes pos :=
  (lineOf_add bytes h).symm

theorem resolveLoop_sound (bytes : List Nat) (il : Bool) :
    ∀ (ps : List Nat) (last : Nat) (seen : List Nat),
      List.Pairwise (· ≤ ·) ps → (∀ p ∈ ps, last ≤ p ∧ p ≤ bytes.length) →
      ∃ res, resolveLoop bytes il ps (lineOf bytes last) last seen = some res ∧
        res.map LineResult.line = newLines seen (ps.map (lineOf bytes)) := by
  intro ps
  induction ps with
  | nil =>
    intro last seen _ _
    exact ⟨[], rfl, by simp [newLines]⟩
  | cons pos rest ih =>
    intro last seen hsorted hb
    obtain ⟨hlast, hlen⟩ := hb pos (by simp)
    have hrest_sorted : List.Pairwise (· ≤ ·) rest := hsorted.of_cons
    have hrest_b : ∀ p ∈ rest, pos ≤ p ∧ p ≤ bytes.length := fun p hp =>
      ⟨List.rel_of_pairwise_cons hsorted hp, (hb p (by simp [hp])).2⟩
    rw [resolveLoop, if_pos ⟨hlast, hlen⟩, advanceLine_lineOf bytes hlast]
    rw [List.map_cons, newLines]
    by_cases hmem : lineOf bytes pos ∈ seen
    · rw [if_pos hmem, if_pos hmem]
      exact ih pos seen hrest_sorted hrest_b
    · rw [if_neg hmem, if_neg hmem]
      obtain ⟨t, ht⟩ : ∃ t, (if il then extract_line_text bytes pos else some []) = some t := by
        cases il with
        | false => exact ⟨[], rfl⟩
        | true => simpa using extract_line_text_isSome bytes pos hlen
      rw [ht, Option.some_bind]
      obtain ⟨res, hres, hmap⟩ :=
        ih pos (lineOf bytes pos :: seen) hrest_sorted hrest_b
      rw [hres, Option.map_some']
      exact ⟨_, rfl, by simp [hmap]⟩

theorem resolveLoop_text_empty (bytes : List Nat) :
    ∀ (ps : List Nat) (cl last : Nat) (seen : List Nat) (res : List LineResult),
      resolveLoop bytes false ps cl last seen = some res →
      ∀ e ∈ res, e.text = [] := by
  intro ps
  induction ps with
  | nil =>
    intro cl last seen res h
    rw [resolveLoop] at h
    cases h
    simp
  | cons pos rest ih =>
    intro cl last seen res h
    rw [resolveLoop] at h
    split at h
    · split at h
      · exact ih _ _ _ _ h
      · rw [if_neg (by simp), Option.some_bind, Option.map_eq_some'] at h
        obtain ⟨res', hres', rfl⟩ := h
        intro e he
        rcases List.mem_cons.mp he with rfl | he'
        · rfl
        · exact ih _ _ _ _ hres' e he'
    · cases h

theorem positions_to_line_results_sound (bytes positions : List Nat) (il : Bool)
    (hb : ∀ p ∈ positions, p ≤ bytes.length) :
    ∃ res, positions_to_line_results bytes positions il = some res ∧
      res.map LineResult.line = newLines [] ((sortDedup positions).map (lineOf bytes)) := by
  have h1 := resolveLoop_sound bytes il (sortDedup positions) 0 []
    (sortDedup_sorted positions)
    (fun p hp => ⟨Nat.zero_le p, hb p (mem_sortDedup.mp hp)⟩)
  rw [lineOf_zero] at h1
  simpa [positions_to_line_results] using h1

theorem collectMatches_none_iff (bytes : List Nat) : ∀ rs : List Matcher,
    collectMatches bytes rs = none ↔ ∃ r ∈ rs, r.find bytes = [] := by
  intro rs
  induction rs with
  | nil => simp [collectMatches]
  | cons r rest ih =>
    rw [collectMatches]
    by_cases h : (r.find bytes).isEmpty
    · rw [if_pos h]
      rw [List.isEmpty_iff] at h
      simp only [true_iff]
      exact ⟨r, by simp, h⟩
    · rw [if_neg h]
      rw [List.isEmpty_iff] at h
      rw [Option.map_eq_none', ih]
      constructor
      · rintro ⟨r', hr', hfind⟩
        exact ⟨r', by simp [hr'], hfind⟩
      · rintro ⟨r', hr', hfind⟩
        rcases List.mem_cons.mp hr' with rfl | hmem
        · exact absurd hfind h
        · exact ⟨r', hmem, hfind⟩

theorem collectMatches_some_mem (bytes : List Nat) : ∀ (rs : List Matcher) (ps : List Nat),
    collectMatches bytes rs = some ps →
    ∀ p : Nat, p ∈ ps ↔ ∃ r ∈ rs, p ∈ r.find bytes := by
  intro rs
  induction rs with
  | nil =>
    intro ps h p
    rw [collectMatches] at h
    cases h
    simp
  | cons r rest ih =>
    intro ps h p
    rw [collectMatches] at h
    split at h
    · cases h
    · rw [Option.map_eq_some'] at h
      obtain ⟨ps', hps', rfl⟩ := h
      simp only [List.mem_append, List.mem_cons]
      rw [ih ps' hps' p]
      constructor
      · rintro (h1 | ⟨r', hr', h2⟩)
        · exact ⟨r, Or.inl rfl, h1⟩
        · exact ⟨r', Or.inr hr', h2⟩
      · rintro ⟨r', rfl | hr', h2⟩
        · exact Or.inl h2
        · exact Or.inr ⟨r', hr', h2⟩

theorem collectMatches_cons_ne_nil {bytes : List Nat} {r : Matcher} {rest : List Matcher}
    {ps : List Nat} (h : collectMatches bytes (r :: rest) = some ps) : ps ≠ [] := by
  rw [collectMatches] at h
  split at h
  · cases h
  · rename_i hne
    rw [Option.map_eq_some'] at h
    obtain ⟨ps', _, rfl⟩ := h
    rw [List.isEmpty_iff] at hne
    simp [hne]

theorem compileAll_none_iff (compile : List Nat → Bool → Option Matcher) (unicode : Bool) :
    ∀ ps : List (List Nat),
      compileAll compile unicode ps = none ↔ ∃ p ∈ ps, compile p unicode = none := by
  intro ps
  induction ps with
  | nil => simp [compileAll]
  | cons p rest ih =>
    rw [compileAll]
    cases hc : compile p unicode with
    | none =>
      simp only [true_iff]
      exact ⟨p, by simp, hc⟩
    | some r =>
      rw [Option.map_eq_none', ih]
      constructor
      · rintro ⟨p', hp', hfail⟩
        exact ⟨p', by simp [hp'], hfail⟩
      · rintro ⟨p', hp', hfail⟩
        rcases List.mem_cons.mp hp' with rfl | hmem
        · rw [hc] at hfail
          cases hfail
        · exact ⟨p', hmem, hfail⟩

theorem compileAll_cons_ne_nil {compile : List Nat → Bool → Option Matcher} {unicode : Bool}
    {p : List Nat} {rest : List (List Nat)} {rs : List Matcher}
    (h : compileAll compile unicode (p :: rest) = some rs) : rs ≠ [] := by
  rw [compileAll] at h
  cases hc : compile p unicode with
  | none => rw [hc] at h; cases h
  | some r =>
    rw [hc, Option.map_eq_some'] at h
    obtain ⟨rs', _, rfl⟩ := h
    simp

/-! Injectivity of the cache key on NUL-free pattern lists. -/

theorem search_file_empty_pat (compile : List Nat → Bool → Option Matcher)
    (fs : String → Option (List Nat)) (cache : Option CachedSearch) (path : String)
    (patterns : List (List Nat)) (unicode include_lines : Bool)
    (hemp : patterns.isEmpty = true) :
    search_file compile fs cache path patterns unicode include_lines = (some [], cache) := by
  rw [search_file, if_pos hemp]

theorem search_file_go_none (compile : List Nat → Bool → Option Matcher)
    (fs : String → Option (List Nat)) (cache : Option CachedSearch) (path : String)
    (patterns : List (List Nat)) (unicode include_lines : Bool)
    (hemp : ¬ patterns.isEmpty = true)
    (hget : getOrCompile compile cache patterns unicode = none) :
    search_file compile fs cache path patterns unicode include_lines = (some [], cache) := by
  simp only [search_file, if_neg hemp, hget]

theorem search_file_fs_none (compile : List Nat → Bool → Option Matcher)
    (fs : String → Option (List Nat)) (cache : Option CachedSearch) (path : String)
    (patterns : List (List Nat)) (unicode include_lines : Bool)
    {regexes : List Matcher} {cache' : Option CachedSearch}
    (hemp : ¬ patterns.isEmpty = true)
    (hget : getOrCompile compile cache patterns unicode = some (regexes, cache'))
    (hfs : fs path = none) :
    search_file compile fs cache path patterns unicode include_lines = (some [], cache') := by
  simp only [search_file, if_neg hemp, hget, hfs]

theorem search_file_run (compile : List Nat → Bool → Option Matcher)
    (fs : String → Option (List Nat)) (cache : Option CachedSearch) (path : String)
    (patterns : List (List Nat)) (unicode include_lines : Bool)
    {regexes : List Matcher} {cache' : Option CachedSearch} {bytes : List Nat}
    (hemp : ¬ patterns.isEmpty = true)
    (hget : getOrCompile compile cache patterns unicode = some (regexes, cache'))
    (hfs : fs path = some bytes) :
    search_file compile fs cache path patterns unicode include_lines =
      (search_file_impl bytes regexes include_lines, cache') := by
  simp only [search_file, if_neg hemp, hget, hfs]

theorem getOrCompile_hit {compile : List Nat → Bool → Option Matcher}
    {cache : Option CachedSearch} {patterns : List (List Nat)} {unicode : Bool}
    {c : CachedSearch} (hc : cache = some c)
    (hk : c.cache_key = mkCacheKey patterns unicode) :
    getOrCompile compile cache patterns unicode = some (c.regexes, some c) := by
  subst hc
  simp only [getOrCompile, if_pos hk]

theorem getOrCompile_miss_none {compile : List Nat → Bool → Option Matcher}
    {cache : Option CachedSearch} {patterns : List (List Nat)} {unicode : Bool}
    (hm : ∀ c, cache = some c → c.cache_key ≠ mkCacheKey patterns unicode)
    (hca : compileAll compile unicode patterns = none) :
    getOrCompile compile cache patterns unicode = none := by
  cases cache with
  | none => simp only [getOrCompile, hca]
  | some c => simp only [getOrCompile, if_neg (hm c rfl), hca]

theorem getOrCompile_miss_some {compile : List Nat → Bool → Option Matcher}
    {cache : Option CachedSearch} {patterns : List (List Nat)} {unicode : Bool}
    {rs : List Matcher}
    (hm : ∀ c, cache = some c → c.cache_key ≠ mkCacheKey patterns unicode)
    (hca : compileAll compile unicode patterns = some rs) :
    getOrCompile compile cache patterns unicode =
      some (rs, some { cache_key := mkCacheKey patterns unicode, regexes := rs }) := by
  cases cache with
  | none => simp only [getOrCompile, hca]
  | some c => simp only [getOrCompile, if_neg (hm c rfl), hca]


/-! Claim theorems. -/

/-- C9: when line text is not requested, every returned result carries
the empty text, whatever the line content is; in the embedded
definition this path never invokes `extract_line_text`. -/
theorem text_empty_when_not_requested (bytes positions : List Nat) (res : List LineResult)
    (h : positions_to_line_results bytes positions false = some res) :
    ∀ e ∈ res, e.text = [] := by
  rw [positions_to_line_results] at h
  exact resolveLoop_text_empty bytes _ _ _ _ _ h

/-- Witness for C9 at a concrete input: a non-empty line whose result
text is nevertheless empty. -/
theorem text_empty_when_not_requested_witness :
    positions_to_line_results [97, 98] [0] false = some [{ line := 1, text := [] }] ∧
    ∀ e ∈ [({ line := 1, text := [] } : LineResult)], e.text = [] :=
  ⟨by decide, text_empty_when_not_requested [97, 98] [0] _ (by decide)⟩

/-- C10: for positions that are at most the file length — including the
length itself, as produced by empty-width matches at end of input — the
resolver and the line-text extractor stay in bounds and return
normally (no `none`, the model of a slicing panic, is reachable). -/
theorem resolver_and_extract_in_bounds (bytes positions : List Nat) (il : Bool)
    (hb : ∀ p ∈ positions, p ≤ bytes.length) :
    (∃ res, positions_to_line_results bytes positions il = some res) ∧
    (∀ pos : Nat, pos ≤ bytes.length → ∃ t, extract_line_text bytes pos = some t) := by
  constructor
  · obtain ⟨res, hres, _⟩ := positions_to_line_results_sound bytes positions il hb
    exact ⟨res, hres⟩
  · exact fun pos hpos => extract_line_text_isSome bytes pos hpos

/-- Witness for C10 at a concrete input: the position equal to the file
length (an empty-width match at end of input) resolves normally and the
extractor still returns the last line's text. -/
theorem resolver_and_extract_in_bounds_witness :
    (∀ p ∈ [3], p ≤ List.length [49, 10, 50]) ∧
    ((∃ res, positions_to_line_results [49, 10, 50] [3] true = some res) ∧
      (∀ pos : Nat, pos ≤ List.length [49, 10, 50] →
        ∃ t, extract_line_text [49, 10, 50] pos = some t)) ∧
    extract_line_text [49, 10, 50] 3 = some [50] :=
  ⟨by decide, resolver_and_extract_in_bounds [49, 10, 50] [3] true (by decide), by decide⟩

/-- Counterexample for C5 as stated: on the file "a\r\r\n" the code
strips every trailing carriage-return (yielding "a"), not a single one
(which would yield "a\r"): `extract_line_text_singleCR` renders the
spec sentence and disagrees with the code at position 0. -/
theorem extract_single_cr_counterexample :
    extract_line_text [97, 13, 13, 10] 0 = some [97] ∧
    extract_line_text_singleCR [97, 13, 13, 10] 0 = some [97, 13] ∧
    some [97] ≠ some [97, 13] :=
  ⟨by decide, by decide, by decide⟩

/-- C5 (amended): when line text is requested and the position is in
bounds, the extracted text is the byte range from one past the nearest
newline before the position (or byte 0 if none) to the nearest newline
at or after the position (or end of file if none), with ALL trailing
carriage-return bytes stripped (the range itself never contains a
newline, so the CR/LF trim only removes carriage-returns); the
at-the-byte-level decoding is total — extraction returns normally. -/
theorem extract_line_text_characterization (bytes : List Nat) (pos : Nat)
    (h : pos ≤ bytes.length) :
    ∃ s e, s ≤ pos ∧ pos ≤ e ∧ e ≤ bytes.length ∧
      (s = 0 ∨ bytes[s - 1]? = some 10) ∧
      (∀ j : Nat, s ≤ j → j < pos → bytes[j]? ≠ some 10) ∧
      (e = bytes.length ∨ bytes[e]? = some 10) ∧
      (∀ j : Nat, pos ≤ j → j < e → bytes[j]? ≠ some 10) ∧
      extract_line_text bytes pos =
        some (trimEndCrLf ((bytes.drop s).take (e - s))) :=
  extract_line_text_eq bytes pos h

/-- Witness for C5 at a concrete input: the CRLF-terminated line
"abc\r\n" yields exactly "abc". -/
theorem extract_line_text_characterization_witness :
    (0 ≤ List.length [97, 98, 99, 13, 10]) ∧
    (∃ s e, s ≤ 0 ∧ 0 ≤ e ∧ e ≤ List.length [97, 98, 99, 13, 10] ∧
      (s = 0 ∨ [97, 98, 99, 13, 10][s - 1]? = some 10) ∧
      (∀ j : Nat, s ≤ j → j < 0 → [97, 98, 99, 13, 10][j]? ≠ some 10) ∧
      (e = List.length [97, 98, 99, 13, 10] ∨ [97, 98, 99, 13, 10][e]? = some 10) ∧
      (∀ j : Nat, 0 ≤ j → j < e → [97, 98, 99, 13, 10][j]? ≠ some 10) ∧
      extract_line_text [97, 98, 99, 13, 10] 0 =
        some (trimEndCrLf (([97, 98, 99, 13, 10].drop s).take (e - s)))) ∧
    extract_line_text [97, 98, 99, 13, 10] 0 = some [97, 98, 99] :=
  ⟨by decide, extract_line_text_characterization [97, 98, 99, 13, 10] 0 (by decide), by decide⟩

/-- Counterexample for C2 as stated: every pattern of ["3", "4"]
compiles and matches somewhere in the file "3\n4", the file opens, and
the pattern list is non-empty — yet the call returns the empty list,
because a prior call with the single pattern "3\04" (which compiles
but matches nowhere) left a cache entry whose NUL-joined key collides
with the key of ["3", "4"], so the stale compiled set is reused. -/
theorem search_file_empty_iff_counterexample :
    compileAll litCompile false [[51], [52]] =
        some [{ find := litFind [51] }, { find := litFind [52] }] ∧
    litFind [51] [51, 10, 52] ≠ [] ∧ litFind [52] [51, 10, 52] ≠ [] ∧
    (search_file litCompile (fun _ => some [51, 10, 52])
        ((search_file litCompile (fun _ => some [51, 10, 52]) none "f" [[51, 0, 52]]
            false false).2)
        "f" [[51], [52]] false false).1 = some [] :=
  ⟨rfl, by decide, by decide, by decide⟩

/-- C2 (amended): provided the cache slot, when it holds the computed
key, stores the compiled form of the submitted patterns (true whenever
no pattern contains a NUL byte), the call always returns a list
— never a fault — and that list is empty exactly when the pattern list
is empty, some pattern fails to compile, the file cannot be opened, or
some pattern matches nowhere in the file. -/
theorem search_file_empty_iff (compile : List Nat → Bool → Option Matcher)
    (fs : String → Option (List Nat)) (cache : Option CachedSearch) (path : String)
    (patterns : List (List Nat)) (unicode include_lines : Bool)
    (hcache : ∀ c, cache = some c → c.cache_key = mkCacheKey patterns unicode →
      compileAll compile unicode patterns = some c.regexes)
    (hbounds : ∀ rs bytes, compileAll compile unicode patterns = some rs →
      fs path = some bytes → ∀ r ∈ rs, ∀ p ∈ r.find bytes, p ≤ bytes.length) :
    ∃ l, (search_file compile fs cache path patterns unicode include_lines).1 = some l ∧
      (l = [] ↔ (patterns = [] ∨ (∃ p ∈ patterns, compile p unicode = none) ∨
        fs path = none ∨
        (∃ rs bytes, compileAll compile unicode patterns = some rs ∧ fs path = some bytes ∧
          ∃ r ∈ rs, r.find bytes = []))) := by
  by_cases hemp : patterns.isEmpty = true
  · rw [search_file_empty_pat compile fs cache path patterns unicode include_lines hemp]
    exact ⟨[], rfl, by simp [List.isEmpty_iff.mp hemp]⟩
  · have hpne : patterns ≠ [] := fun hc => hemp (by simp [hc])
    cases hca : compileAll compile unicode patterns with
    | none =>
      have hmiss : ∀ c, cache = some c → c.cache_key ≠ mkCacheKey patterns unicode := by
        intro c hc hk
        have hx := hcache c hc hk
        rw [hca] at hx
        cases hx
      rw [search_file_go_none compile fs cache path patterns unicode include_lines hemp
        (getOrCompile_miss_none hmiss hca)]
      refine ⟨[], rfl, ?_⟩
      constructor
      · intro _
        exact Or.inr (Or.inl ((compileAll_none_iff compile unicode patterns).mp hca))
      · intro _
        rfl
    | some rs =>
      obtain ⟨cache', hget⟩ :
          ∃ cache', getOrCompile compile cache patterns unicode = some (rs, cache') := by
        cases cache with
        | none => exact ⟨_, getOrCompile_miss_some (by intro c hc; cases hc) hca⟩
        | some c =>
          by_cases hk : c.cache_key = mkCacheKey patterns unicode
          · have hcr := hcache c rfl hk
            rw [hca] at hcr
            injection hcr with hcr
            refine ⟨some c, ?_⟩
            rw [getOrCompile_hit rfl hk, hcr]
          · exact ⟨_, getOrCompile_miss_some
              (by intro c' hc'; injection hc' with h'; subst h'; exact hk) hca⟩
      cases hfs : fs path with
      | none =>
        rw [search_file_fs_none compile fs cache path patterns unicode include_lines hemp
          hget hfs]
        exact ⟨[], rfl, by simp [hfs]⟩
      | some bytes =>
        rw [search_file_run compile fs cache path patterns unicode include_lines hemp
          hget hfs]
        by_cases hand : ∃ r ∈ rs, r.find bytes = []
        · have himpl : search_file_impl bytes rs include_lines = some [] := by
            rw [search_file_impl, (collectMatches_none_iff bytes rs).mpr hand]
          refine ⟨[], by simpa using himpl, ?_⟩
          constructor
          · intro _
            exact Or.inr (Or.inr (Or.inr ⟨rs, bytes, rfl, rfl, hand⟩))
          · intro _
            rfl
        · push_neg at hand
          cases hcm : collectMatches bytes rs with
          | none =>
            exfalso
            obtain ⟨r, hr, hfind⟩ := (collectMatches_none_iff bytes rs).mp hcm
            exact hand r hr hfind
          | some positions =>
            have hbp : ∀ p ∈ positions, p ≤ bytes.length := by
              intro p hp
              obtain ⟨r, hr, hpr⟩ :=
                (collectMatches_some_mem bytes rs positions hcm p).mp hp
              exact hbounds rs bytes hca hfs r hr p hpr
            obtain ⟨res, hres, hmap⟩ :=
              positions_to_line_results_sound bytes positions include_lines hbp
            have hrs_ne : rs ≠ [] := by
              cases patterns with
              | nil => exact absurd rfl hpne
              | cons p ps => exact compileAll_cons_ne_nil hca
            have hpos_ne : positions ≠ [] := by
              cases rs with
              | nil => exact absurd rfl hrs_ne
              | cons r rest => exact collectMatches_cons_ne_nil hcm
            have hres_ne : res ≠ [] := by
              intro hcn
              subst hcn
              simp only [List.map_nil] at hmap
              exact newLines_nil_ne_nil
                (fun hmn => sortDedup_ne_nil hpos_ne (List.map_eq_nil_iff.mp hmn))
                hmap.symm
            refine ⟨res, ?_, ?_⟩
            · show search_file_impl bytes rs include_lines = some res
              rw [search_file_impl, hcm]
              exact hres
            · constructor
              · intro hcn
                exact absurd hcn hres_ne
              · rintro (h1 | h2 | h3 | h4)
                · exact absurd h1 hpne
                · rw [(compileAll_none_iff compile unicode patterns).mpr h2] at hca
                  cases hca
                · exact Option.noConfusion h3
                · obtain ⟨rs', bytes', hca', hfs', r, hr, hfind⟩ := h4
                  injection hca' with e1
                  subst e1
                  injection hfs' with e2
                  subst e2
                  exact absurd hfind (hand r hr)

/-- Witness for C2 at a concrete input: one pattern "7" on the file
"7" with a cold cache; the result is non-empty and no failure condition
holds. -/
theorem search_file_empty_iff_witness :
    ∃ l, (search_file litCompile (fun _ => some [55]) none "w" [[55]] false false).1 =
        some l ∧
      (l = [] ↔ ([[55]] = ([] : List (List Nat)) ∨
        (∃ p ∈ [[55]], litCompile p false = none) ∨
        (fun _ => some [55] : String → Option (List Nat)) "w" = none ∨
        (∃ rs bytes, compileAll litCompile false [[55]] = some rs ∧
          (fun _ => some [55] : String → Option (List Nat)) "w" = some bytes ∧
          ∃ r ∈ rs, r.find bytes = []))) := by
  refine search_file_empty_iff litCompile (fun _ => some [55]) none "w" [[55]] false false
    ?_ ?_
  · intro c hc
    cases hc
  · intro rs bytes hrs hbytes r hr p hp
    have hrs' : some [({ find := litFind [55] } : Matcher)] = some rs := hrs
    injection hrs' with h1
    subst h1
    have hb' : some [55] = some bytes := hbytes
    injection hb' with h2
    subst h2
    rw [List.mem_singleton] at hr
    subst hr
    change p ∈ litFind [55] [55] at hp
    have hf : litFind [55] [55] = [0] := by decide
    rw [hf, List.mem_singleton] at hp
    subst hp
    decide

/-- Counterexample for C6 as stated: the patterns "(" and ")" both fail
to compile, yet the call returns a non-empty result instead of the
empty list, because a prior call with the single compilable pattern
"(\0)" (a group matching a NUL byte) left a cache entry whose key
collides with the key of ["(", ")"] and the stale set matches the
file. -/
theorem compile_failure_counterexample :
    parenCompile [40] false = none ∧
    (search_file parenCompile (fun _ => some [40, 0, 41])
        ((search_file parenCompile (fun _ => some [40, 0, 41]) none "f" [[40, 0, 41]]
            false false).2)
        "f" [[40], [41]] false false).1 ≠ some [] :=
  ⟨rfl, by decide⟩

/-- C6 (amended): if any pattern fails to compile, the cache slot is
always left exactly as it was before the call (a stale-but-valid entry
is preserved, never overwritten or corrupted); and provided the slot
does not already hold an entry whose key equals the computed key, the
call also returns the empty list. -/
theorem compile_failure_preserves_cache (compile : List Nat → Bool → Option Matcher)
    (fs : String → Option (List Nat)) (cache : Option CachedSearch) (path : String)
    (patterns : List (List Nat)) (unicode include_lines : Bool)
    (hfail : ∃ p ∈ patterns, compile p unicode = none) :
    (search_file compile fs cache path patterns unicode include_lines).2 = cache ∧
    ((∀ c, cache = some c → c.cache_key ≠ mkCacheKey patterns unicode) →
      (search_file compile fs cache path patterns unicode include_lines).1 = some []) := by
  have hca : compileAll compile unicode patterns = none :=
    (compileAll_none_iff compile unicode patterns).mpr hfail
  by_cases hemp : patterns.isEmpty = true
  · rw [search_file_empty_pat compile fs cache path patterns unicode include_lines hemp]
    exact ⟨rfl, fun _ => rfl⟩
  · cases cache with
    | none =>
      rw [search_file_go_none compile fs none path patterns unicode include_lines hemp
        (getOrCompile_miss_none (by intro c hc; cases hc) hca)]
      exact ⟨rfl, fun _ => rfl⟩
    | some c =>
      by_cases hk : c.cache_key = mkCacheKey patterns unicode
      · constructor
        · cases hfs : fs path with
          | none =>
            rw [search_file_fs_none compile fs (some c) path patterns unicode include_lines
              hemp (getOrCompile_hit rfl hk) hfs]
          | some bytes =>
            rw [search_file_run compile fs (some c) path patterns unicode include_lines
              hemp (getOrCompile_hit rfl hk) hfs]
        · intro hmiss
          exact absurd hk (hmiss c rfl)
      · rw [search_file_go_none compile fs (some c) path patterns unicode include_lines hemp
          (getOrCompile_miss_none
            (by intro c' hc'; injection hc' with h'; subst h'; exact hk) hca)]
        exact ⟨rfl, fun _ => rfl⟩

/-- Witness for C6 at a concrete input: the malformed pattern "(" with
an empty cache slot: empty result and untouched (still empty) slot. -/
theorem compile_failure_preserves_cache_witness :
    (∃ p ∈ [[40]], parenCompile p false = none) ∧
    (search_file parenCompile (fun _ => some [40, 0, 41]) none "g" [[40]] false false).2 =
        none ∧
    ((∀ c, (none : Option CachedSearch) = some c →
        c.cache_key ≠ mkCacheKey [[40]] false) →
      (search_file parenCompile (fun _ => some [40, 0, 41]) none "g" [[40]] false
          false).1 = some []) := by
  have h := compile_failure_preserves_cache parenCompile
    (fun _ => some [40, 0, 41]) none "g" [[40]] false false ⟨[40], by simp, rfl⟩
  exact ⟨⟨[40], by simp, rfl⟩, h.1, h.2⟩

/-- Counterexample for C7 as stated: a call that fails to open the file
("fs" returns none) after a cache miss does modify the thread-local
slot — the freshly compiled set for pattern "2" overwrites the entry
for pattern "1" before the open is attempted, so the stored key
changes. -/
theorem open_failure_cache_counterexample :
    ((fun _ => none : String → Option (List Nat)) "f" = none) ∧
    Option.map CachedSearch.cache_key
        ((search_file litCompile (fun _ => none)
            (some { cache_key := mkCacheKey [[49]] false,
                    regexes := [{ find := litFind [49] }] })
            "f" [[50]] false false).2)
      ≠ Option.map CachedSearch.cache_key
          (some { cache_key := mkCacheKey [[49]] false,
                  regexes := [{ find := litFind [49] }] }) :=
  ⟨rfl, by decide⟩

/-- C7 (amended): when the cache slot already holds the computed key, a
call that fails to open the file (OpenFailure) or whose cached regexes
include one with no match in the opened file (NoMatch) returns the
empty list and leaves the cache slot exactly as it was; on a cache miss
the only modification is the get-or-compile store, which happens before
the file is opened. -/
theorem open_failure_no_match_preserve_cache (compile : List Nat → Bool → Option Matcher)
    (fs : String → Option (List Nat)) (cache : Option CachedSearch) (path : String)
    (patterns : List (List Nat)) (unicode include_lines : Bool) {c : CachedSearch}
    (hc : cache = some c) (hk : c.cache_key = mkCacheKey patterns unicode)
    (hfail : fs path = none ∨
      ∃ bytes, fs path = some bytes ∧ ∃ r ∈ c.regexes, r.find bytes = []) :
    search_file compile fs cache path patterns unicode include_lines = (some [], cache) := by
  subst hc
  by_cases hemp : patterns.isEmpty = true
  · exact search_file_empty_pat compile fs (some c) path patterns unicode include_lines hemp
  · rcases hfail with hfs | ⟨bytes, hfs, hand⟩
    · exact search_file_fs_none compile fs (some c) path patterns unicode include_lines hemp
        (getOrCompile_hit rfl hk) hfs
    · rw [search_file_run compile fs (some c) path patterns unicode include_lines hemp
        (getOrCompile_hit rfl hk) hfs]
      rw [search_file_impl, (collectMatches_none_iff bytes c.regexes).mpr hand]

/-- Witness for C7 at a concrete input: an unopenable file with a
cache hit for pattern "3": empty result, slot unchanged. -/
theorem open_failure_no_match_preserve_cache_witness :
    search_file litCompile (fun _ => none)
        (some { cache_key := mkCacheKey [[51]] false,
                regexes := [{ find := litFind [51] }] })
        "h" [[51]] false false =
      (some [], some { cache_key := mkCacheKey [[51]] false,
                       regexes := [{ find := litFind [51] }] }) :=
  open_failure_no_match_preserve_cache litCompile (fun _ => none) _ "h" [[51]] false false
    rfl rfl (Or.inl rfl)

end RunoSearch
